import Mathlib

/-!
Shallow embedding of the MarkovSeqRec repository (build.py, recommend.py,
evaluate.py) and of the parts of its Markov-chain engine that the spec
describes.  Items and users are strings, timestamps are rationals (the
source parses them as int or float and only ever compares and subtracts
them).  Parts implemented by the external `niemarkov` package, which is not
part of the repository sources, are modelled from the spec and marked as
such in their doc comments.
-/

/-- Items are opaque string identifiers (spec section 3). -/
abbrev Item := String

/-- Slot of a Markov state: `some k` is the label index `k`, `none` is the
padding sentinel used when a path or history is shorter than the order
(spec section 3). -/
abbrev Slot := Option Nat

/-- Markov state: a tuple of `order` slots (spec section 3). -/
abbrev MCState := List Slot

/-- Modelled from the spec: the Markov chain owns an order, a label index
(item list, position = integer label) and a transition table from states to
per-item counts (spec section 3, "Markov Chain"). The `niemarkov`
implementation is not part of the repository sources. -/
structure MarkovChain where
  order : Nat
  labels : List Item
  transitions : List (MCState × List (Item × Nat))
deriving DecidableEq

/-- Position of an item in the label index; models the chain field
`label_to_state` (a lookup that fails, as in Python dict KeyError, when the
item has no label). -/
def idxOf : List Item → Item → Option Nat
  | [], _ => none
  | x :: xs, it => if x = it then some 0 else (idxOf xs it).map (· + 1)

/-- Modelled from the spec: the label index grows to include any new item
encountered during path ingestion (spec section 4.2). -/
def registerLabels (labels : List Item) (items : List Item) : List Item :=
  items.foldl (fun ls it => if it ∈ ls then ls else ls ++ [it]) labels

/-- Modelled from the spec: the window of `order` slots ending just before
position `i` of a path, left-padded with the sentinel for positions before
the path start (spec sections 3 and 4.2). -/
def windowAt (labels : List Item) (order : Nat) (items : List Item) (i : Nat) : MCState :=
  List.replicate (order - i) none ++ ((items.take i).drop (i - order)).map (idxOf labels)

/-- Increment the count of `it` in a per-state outgoing count table. -/
def bumpInner : List (Item × Nat) → Item → List (Item × Nat)
  | [], it => [(it, 1)]
  | (x, c) :: rest, it =>
      if x = it then (x, c + 1) :: rest else (x, c) :: bumpInner rest it

/-- Increment the count of the transition `st -> it` in a transition table. -/
def bumpTrans : List (MCState × List (Item × Nat)) → MCState → Item → List (MCState × List (Item × Nat))
  | [], st, it => [(st, [(it, 1)])]
  | (s, m) :: rest, st, it =>
      if s = st then (s, bumpInner m it) :: rest else (s, m) :: bumpTrans rest st it

/-- Modelled from the spec: `add_path` ingests a path item sequence; it is a
no-op when the path length is at most the order, and otherwise increments,
for every window ending at a position `i` of the path (`1 <= i < length`),
the count of the transition from that window state to the item at `i`,
registering new labels as encountered (spec section 4.2, padding per
section 3). -/
def MarkovChain.add_path (mc : MarkovChain) (items : List Item) : MarkovChain :=
  if items.length ≤ mc.order then mc
  else
    let labels' := registerLabels mc.labels items
    { mc with
      labels := labels',
      transitions := ((List.range items.length).drop 1).foldl
        (fun ts i => bumpTrans ts (windowAt labels' mc.order items i) (items.getD i "")) mc.transitions }

/-- Modelled from the spec: a state is known exactly when it has recorded
outgoing transitions; `get_label` fails with `UnknownState` otherwise (spec
sections 3 and 4.2), so the success of the `mc.get_label(final_node)` call
in recommend.py line 140 is exactly this membership test. -/
def MarkovChain.knownState (mc : MarkovChain) (st : MCState) : Bool :=
  mc.transitions.any (fun p => decide (p.1 = st))

/-- The freshly constructed chain `MarkovChain(order=markov_order)`. -/
def emptyChain (order : Nat) : MarkovChain :=
  { order := order, labels := [], transitions := [] }

/-- recommend.py line 137: `final_items = [item for t, item in inspections[-mc.order:]]`,
the last `order` items of the user history. -/
def finalItemsOf (order : Nat) (inspections : List (ℚ × Item)) : List Item :=
  (inspections.drop (inspections.length - order)).map Prod.snd

/-- recommend.py line 139: `[mc.label_to_state[item] for item in final_items]`;
fails (KeyError) as soon as one item has no label. -/
def encodeAll (labels : List Item) : List Item → Option (List Nat)
  | [] => some []
  | x :: xs =>
    match idxOf labels x, encodeAll labels xs with
    | some k, some ks => some (k :: ks)
    | _, _ => none

/-- recommend.py lines 138-142: build the candidate node
`tuple([None]*(mc.order-len(final_items)) + [...])` and probe it with
`mc.get_label`; any exception leaves `final_node = None`. -/
def finalNodeTry (mc : MarkovChain) (finalItems : List Item) : Option MCState :=
  match encodeAll mc.labels finalItems with
  | none => none
  | some encs =>
    let node : MCState := List.replicate (mc.order - finalItems.length) none ++ encs.map some
    if mc.knownState node then some node else none

/-- recommend.py line 146: the value `mc.labels[v[i]]` compared against
`final_items[i]`. A sentinel slot is treated as a value distinct from every
real item (spec section 4.3: sentinel treated as a normal value). -/
def slotLabel (mc : MarkovChain) (s : Slot) : Option Item :=
  s.bind (fun k => mc.labels[k]?)

/-- recommend.py line 146: `sum(1 for i in range(len(v)) if final_items[i] != mc.labels[v[i]])`.
Walks the state `v` and `final_items` in parallel; `none` models the
IndexError raised when `final_items` is shorter than the state. -/
def vDistWalk (mc : MarkovChain) : MCState → List Item → Option Nat
  | [], _ => some 0
  | _ :: _, [] => none
  | s :: vs, x :: fis =>
    (vDistWalk mc vs fis).map (fun n => n + if slotLabel mc s ≠ some x then 1 else 0)

/-- recommend.py lines 144-149: the distances of all states with
transitions; `none` if computing any distance raises. -/
def distsOf (mc : MarkovChain) (fi : List Item) : List MCState → Option (List (MCState × Nat))
  | [] => some []
  | v :: vs =>
    match vDistWalk mc v fi, distsOf mc fi vs with
    | some d, some rest => some ((v, d) :: rest)
    | _, _ => none

/-- recommend.py lines 144-150: the minimum-distance set
`node_dists[min(node_dists.keys())]` from which `choice` picks uniformly;
`.error` models a raised exception (IndexError inside a distance, or
ValueError of `min` on an empty table). -/
def nearestCandidates (mc : MarkovChain) (fi : List Item) : Except Unit (List MCState) :=
  match distsOf mc fi (mc.transitions.map Prod.fst) with
  | none => .error ()
  | some [] => .error ()
  | some ((v₀, d₀) :: rest) =>
    let dmin := rest.foldl (fun m p => Nat.min m p.2) d₀
    .ok ((((v₀, d₀) :: rest).filter (fun p => decide (p.2 = dmin))).map Prod.fst)

/-- recommend.py lines 136-150: the start-node selection of `recommend`.
`.ok none` is `final_node = None` handed to the random walk, `.ok (some cands)`
means the walk starts from `choice cands`, and `.error` is a raised
exception. Note the resolver (lines 143-150) runs exactly when the
candidate window IS a known state. -/
def selectStart (mc : MarkovChain) (fi : List Item) : Except Unit (Option (List MCState)) :=
  match finalNodeTry mc fi with
  | none => .ok none
  | some _ => (nearestCandidates mc fi).map some

/-- recommend.py lines 153-160: collect distinct items from the walk output
(already mapped to item labels) until `num_recs` are gathered. -/
def collectWalk (numRecs : Nat) : List Item → List Item → List Item
  | [], acc => acc
  | x :: xs, acc =>
    if acc.length = numRecs then acc
    else collectWalk numRecs xs (if x ∈ acc then acc else acc ++ [x])

/-- recommend.py lines 163-170: pop items off the shuffled remaining list,
skipping already chosen ones, until the target count is reached; `none`
models the IndexError of popping from an exhausted list. -/
def fillLoop (tgt : Nat) : List Item → List Item → Option (List Item)
  | [], curr => if curr.length < tgt then none else some curr
  | x :: rest, curr =>
    if curr.length < tgt then
      fillLoop tgt rest (if x ∈ curr then curr else curr ++ [x])
    else some curr

/-- recommend.py lines 152-171: one user's final recommendation list, given
the item sequence produced by the random walk (the walk itself lives in the
external `niemarkov` package and is universally quantified in theorems) and
the shuffled vocabulary list. -/
def recsForUser (walkItems shuffled : List Item) (numRecs : Nat) : Option (List Item) :=
  let curr := collectWalk numRecs walkItems []
  if curr.length < numRecs then fillLoop numRecs shuffled curr else some curr

/-- Session threshold: a positive rational or float infinity
(`-t` defaults to `float('inf')` in build.py). -/
inductive Thresh where
  | fin (q : ℚ)
  | inf
deriving DecidableEq

/-- build.py line 103: the comparison `gap > threshold`; nothing exceeds
float infinity. -/
def gapGT (g : ℚ) : Thresh → Bool
  | .inf => false
  | .fin q => decide (q < g)

/-- build.py line 103: whether a new path starts at index `i`, that is
`user_inspections_list[i][0] - user_inspections_list[i-1][0] > threshold`. -/
def isSplit (l : List (ℚ × Item)) (t : Thresh) (i : Nat) : Bool :=
  match l[i]?, l[i - 1]? with
  | some a, some b => gapGT (a.1 - b.1) t
  | _, _ => false

/-- build.py lines 101-105: `split_inds = [0] + [i in range(1, len) if gap > t] + [len]`. -/
def splitInds (l : List (ℚ × Item)) (t : Thresh) : List Nat :=
  0 :: ((List.range' 1 (l.length - 1)).filter (isSplit l t) ++ [l.length])

/-- build.py lines 106-108: the slices `l[s:e]` for consecutive index pairs. -/
def segmentsOf (l : List (ℚ × Item)) (inds : List Nat) : List (List (ℚ × Item)) :=
  (inds.zip inds.tail).map (fun se => (l.drop se.1).take (se.2 - se.1))

/-- The session segmenter: the list of paths of one user history. -/
def buildPaths (l : List (ℚ × Item)) (t : Thresh) : List (List (ℚ × Item)) :=
  segmentsOf l (splitInds l t)

/-- build.py lines 101-110: process one user history, ingesting each slice
whose length exceeds the Markov order. -/
def ingestUser (order : Nat) (t : Thresh) (mc : MarkovChain) (l : List (ℚ × Item)) : MarkovChain :=
  ((splitInds l t).zip (splitInds l t).tail).foldl
    (fun m se =>
      if order < se.2 - se.1 then m.add_path (((l.drop se.1).take (se.2 - se.1)).map Prod.snd)
      else m) mc

/-- build.py lines 98-111: `build_niemarkov` over all user histories. -/
def build_niemarkov (data : List (List (ℚ × Item))) (order : Nat) (t : Thresh) : MarkovChain :=
  data.foldl (ingestUser order t) (emptyChain order)

/-- Association-list lookup, modelling Python dict access in insertion
order (first matching key). -/
def alookup {α : Type} : List (String × α) → String → Option α
  | [], _ => none
  | (k, v) :: rest, u => if k = u then some v else alookup rest u

/-- evaluate.py lines 80-90: per-user count metric; users absent from the
purchase data are skipped (`except KeyError: continue`). A purchase entry
stands for the set built by `load_purchases` (distinct items). -/
def evaluate (recs : List (String × List String)) (purchases : List (String × List String)) :
    List (String × (Nat × Nat)) :=
  recs.filterMap (fun ur =>
    (alookup purchases ur.1).map (fun up =>
      (ur.1, (ur.2.countP (fun it => decide (it ∈ up)), min up.length ur.2.length))))

/-- build.py line 54: `parse_args` raises iff `markov_order < 1`. -/
def parse_args_rejects_order (m : Int) : Bool := decide (m < 1)

/-- build.py line 51: `parse_args` raises iff `threshold <= 0`. -/
def parse_args_rejects_threshold : Thresh → Bool
  | .inf => false
  | .fin q => decide (q ≤ 0)

/-- recommend.py line 56: `parse_args` raises iff `num_recs < 0` (the error
message claims the count must be positive). -/
def parse_args_rejects_num_recs (n : Int) : Bool := decide (n < 0)

/-- Errors of `load_interactions` (build.py lines 60-95): a missing column
name in the header (KeyError), a data row too short for a column index
(IndexError), or an unparseable time field (ValueError). -/
inductive LoadErr where
  | missingColumn
  | shortRow
  | malformedTime
deriving DecidableEq

/-- build.py line 74: `col2ind = {col: ind for ind, col in enumerate(row)}`;
for duplicate column names the last position wins, as in a Python dict
comprehension. -/
def lastIdx : List String → String → Option Nat
  | [], _ => none
  | x :: xs, c =>
    match lastIdx xs c with
    | some i => some (i + 1)
    | none => if x = c then some 0 else none

/-- build.py lines 77-79: `row_stripped[ind]`, IndexError when out of range.
Rows are modelled as their already stripped fields. -/
def getField (row : List String) (i : Nat) : Except LoadErr String :=
  match row[i]? with
  | some s => .ok s
  | none => .error .shortRow

/-- build.py lines 87-89: append `(time, item)` to `data[user]`, creating
the user entry on first sight (dict insertion order). -/
def appendEntry : List (String × List (ℚ × String)) → String → (ℚ × String) → List (String × List (ℚ × String))
  | [], u, x => [(u, [x])]
  | (v, xs) :: rest, u, x =>
    if v = u then (v, xs ++ [x]) :: rest else (v, xs) :: appendEntry rest u x

/-- Lexicographic comparison of code point lists, the order Python uses on
strings. -/
def charsLe : List Char → List Char → Bool
  | [], _ => true
  | _ :: _, [] => false
  | a :: as, b :: bs => if a < b then true else if b < a then false else charsLe as bs

/-- Python tuple comparison of `(time, item)` pairs, used by `vals.sort()`
in build.py line 94. -/
def pairLeB (a b : ℚ × String) : Bool :=
  decide (a.1 < b.1) || (decide (a.1 = b.1) && charsLe a.2.data b.2.data)

/-- Insert into a sorted list: the sorting of `vals.sort()` is modelled as
insertion sort with respect to tuple comparison (for a linear order any
correct sort yields the same list). -/
def insPair (x : ℚ × String) : List (ℚ × String) → List (ℚ × String)
  | [] => [x]
  | y :: ys => if pairLeB x y then x :: y :: ys else y :: insPair x ys

/-- build.py line 94: `vals.sort()`. -/
def sortPairs (l : List (ℚ × String)) : List (ℚ × String) :=
  l.foldr insPair []

/-- build.py lines 71-89: the data-row loop of `load_interactions`, with the
numeric time parser (Python `int(s)` falling back to `float(s)`) abstracted
as a parameter. -/
def loadRows (pyNum : String → Option ℚ) (iu ii it : Nat) :
    List (List String) → List (String × List (ℚ × String)) →
    Except LoadErr (List (String × List (ℚ × String)))
  | [], acc => .ok acc
  | row :: rest, acc =>
    match getField row iu with
    | .error e => .error e
    | .ok u =>
      match getField row ii with
      | .error e => .error e
      | .ok item =>
        match getField row it with
        | .error e => .error e
        | .ok ts =>
          match pyNum ts with
          | none => .error .malformedTime
          | some q => loadRows pyNum iu ii it rest (appendEntry acc u (q, item))

/-- build.py lines 60-95: `load_interactions` over the parsed CSV rows
(header first); resolves the three column indices, loads the data rows and
sorts each user's interactions chronologically. -/
def load_interactions (pyNum : String → Option ℚ) (rows : List (List String)) (cu ci ct : String) :
    Except LoadErr (List (String × List (ℚ × String))) :=
  match rows with
  | [] => .ok []
  | header :: body =>
    match lastIdx header cu, lastIdx header ci, lastIdx header ct with
    | some iu, some ii, some it =>
      match loadRows pyNum iu ii it body [] with
      | .error e => .error e
      | .ok data => .ok (data.map (fun uv => (uv.1, sortPairs uv.2)))
    | _, _, _ => .error .missingColumn

/-- The characters after the last dot of a name, if any. -/
def afterLastDot : List Char → Option (List Char)
  | [] => none
  | c :: cs =>
    match afterLastDot cs with
    | some s => some s
    | none => if c = '.' then some cs else none

/-- Python `pathlib.PurePath.suffix` on a file name: `name[i:]` for the last
dot position `i` when `0 < i < len(name) - 1`, else the empty string; it is
empty or starts with the dot. -/
def pySuffix : List Char → List Char
  | [] => []
  | _ :: rest =>
    match afterLastDot rest with
    | some s => if s.isEmpty then [] else '.' :: s
    | none => []

/-- The value `p.suffix.lower()` on a file name. -/
def lowerSuffix (name : List Char) : List Char :=
  (pySuffix name).map Char.toLower

/-- recommend.py lines 68 and 106, evaluate.py line 57: the gzip test
`p.suffix.lower() == 'gz'` (no leading dot). -/
def gzipCheckNoDot (name : List Char) : Bool :=
  decide (lowerSuffix name = "gz".data)

/-- build.py line 62: the gzip test `p.suffix.lower() == '.gz'`. -/
def gzipCheckDot (name : List Char) : Bool :=
  decide (lowerSuffix name = ".gz".data)

/-- An order-1 chain built from the single path A B; used as the concrete
chain of several theorems. -/
def mcT1 : MarkovChain := (emptyChain 1).add_path ["A", "B"]

/-- An order-2 chain built from the single path A B C; its transition table
contains the left-padded state (sentinel, A). -/
def mcT2 : MarkovChain := (emptyChain 2).add_path ["A", "B", "C"]

/-- A sample instantiation of the abstract numeric time parser: unsigned
decimal integers only (enough for concrete witnesses; the theorems hold for
every parser). -/
def natNum (s : String) : Option ℚ :=
  if s.data.all Char.isDigit && !s.data.isEmpty then
    some ((s.data.foldl (fun acc c => 10 * acc + (c.toNat - 48)) 0 : Nat) : ℚ)
  else none

lemma pySuffix_structure (name : List Char) :
    pySuffix name = [] ∨ ∃ s, pySuffix name = '.' :: s := by
  cases name with
  | nil => exact Or.inl rfl
  | cons c rest =>
    show (match afterLastDot rest with
      | some s => if s.isEmpty then [] else '.' :: s
      | none => []) = [] ∨ ∃ s, (match afterLastDot rest with
      | some s => if s.isEmpty then [] else '.' :: s
      | none => []) = '.' :: s
    cases afterLastDot rest with
    | none => exact Or.inl rfl
    | some s =>
      by_cases h : s.isEmpty
      · simp [h]
      · simp [h]

/-- Claim C9: in the loaders of recommend.py and evaluate.py the gzip test
compares the suffix with the dotless string gz; since a suffix is empty or
starts with a dot, the test is false for every file name and those loaders
always open plain text, while the build.py comparison against dot gz can
succeed. -/
theorem claim_C9 :
    (∀ name : List Char, gzipCheckNoDot name = false)
    ∧ gzipCheckDot "data.csv.gz".data = true
    ∧ gzipCheckNoDot "data.csv.gz".data = false := by
  refine ⟨?_, by decide, by decide⟩
  intro name
  have hgz : "gz".data = ['g', 'z'] := rfl
  rcases pySuffix_structure name with h | ⟨s, h⟩
  · simp [gzipCheckNoDot, lowerSuffix, h, hgz]
  · simp only [gzipCheckNoDot, lowerSuffix, h, hgz, List.map_cons, decide_eq_false_iff_not]
    intro hc
    have h2 := congrArg (fun l => l.headI) hc
    simp at h2

/-- Claim C1: for a user whose candidate window is not a known state, the
code sets final_node to None and skips the resolver entirely, handing None
to the random walk, although the chain mcT1 has the known state (A) that
the nearest-state resolver (had it been invoked, as the claim and the spec
demand) would have produced. -/
theorem claim_C1 :
    selectStart mcT1 (finalItemsOf mcT1.order [((0 : ℚ), "C")]) = .ok none
    ∧ mcT1.transitions.map Prod.fst = [[some 0]]
    ∧ nearestCandidates mcT1 (finalItemsOf mcT1.order [((0 : ℚ), "C")]) = .ok [[some 0]] :=
  ⟨rfl, rfl, rfl⟩

/-- Claim C7: argument validation rejects a Markov order below one and a
non-positive threshold, but the recommendation count check only rejects
negative values: the count zero is accepted, contradicting both the claim
and the error message of recommend.py line 57. -/
theorem claim_C7 :
    parse_args_rejects_num_recs 0 = false
    ∧ (∀ n : Int, parse_args_rejects_num_recs n = true ↔ n < 0)
    ∧ (∀ m : Int, parse_args_rejects_order m = true ↔ m < 1)
    ∧ (∀ q : ℚ, parse_args_rejects_threshold (.fin q) = true ↔ q ≤ 0)
    ∧ parse_args_rejects_threshold .inf = false := by
  refine ⟨rfl, ?_, ?_, ?_, rfl⟩ <;> intro x <;>
    simp [parse_args_rejects_num_recs, parse_args_rejects_order, parse_args_rejects_threshold]

/-- Claim C6: the evaluator emits, for each user present in both maps, the
pair of the number of recommended items that were purchased and the best
achievable number, and emits nothing for users missing from either map. -/
theorem claim_C6 (recs purchases : List (String × List String)) (u : String) :
    (∀ r, alookup recs u = some r → ∀ p, alookup purchases u = some p →
      alookup (evaluate recs purchases) u =
        some (r.countP (fun it => decide (it ∈ p)), min p.length r.length))
    ∧ (alookup purchases u = none → alookup (evaluate recs purchases) u = none)
    ∧ (alookup recs u = none → alookup (evaluate recs purchases) u = none) := by
  induction recs with
  | nil =>
    refine ⟨fun r hr => ?_, fun _ => rfl, fun _ => rfl⟩
    simp [alookup] at hr
  | cons hd tl ih =>
    obtain ⟨h1, h2, h3⟩ := ih
    cases hpp : alookup purchases hd.1 with
    | none =>
      have hev : evaluate (hd :: tl) purchases = evaluate tl purchases := by
        show List.filterMap _ (hd :: tl) = _
        rw [List.filterMap_cons, hpp]
        rfl
      by_cases hu : hd.1 = u
      · subst hu
        refine ⟨fun r hr p hp => ?_, fun _ => ?_, fun hr => ?_⟩
        · rw [hpp] at hp; cases hp
        · rw [hev]; exact h2 hpp
        · simp [alookup] at hr
      · refine ⟨fun r hr p hp => ?_, fun hp => ?_, fun hr => ?_⟩
        · rw [hev]
          have hr' : alookup tl u = some r := by simpa [alookup, hu] using hr
          exact h1 r hr' p hp
        · rw [hev]; exact h2 hp
        · rw [hev]
          have hr' : alookup tl u = none := by simpa [alookup, hu] using hr
          exact h3 hr'
    | some p₀ =>
      have hev : evaluate (hd :: tl) purchases =
          (hd.1, (hd.2.countP (fun it => decide (it ∈ p₀)), min p₀.length hd.2.length))
            :: evaluate tl purchases := by
        show List.filterMap _ (hd :: tl) = _
        rw [List.filterMap_cons, hpp]
        rfl
      by_cases hu : hd.1 = u
      · subst hu
        refine ⟨fun r hr p hp => ?_, fun hp => ?_, fun hr => ?_⟩
        · rw [hpp] at hp
          injection hp with hp; subst hp
          have hr' : hd.2 = r := by simpa [alookup] using hr
          subst hr'
          rw [hev]; simp [alookup]
        · rw [hpp] at hp; cases hp
        · simp [alookup] at hr
      · have hskip : alookup (evaluate (hd :: tl) purchases) u = alookup (evaluate tl purchases) u := by
          rw [hev]; simp [alookup, hu]
        refine ⟨fun r hr p hp => ?_, fun hp => ?_, fun hr => ?_⟩
        · rw [hskip]
          have hr' : alookup tl u = some r := by simpa [alookup, hu] using hr
          exact h1 r hr' p hp
        · rw [hskip]; exact h2 hp
        · rw [hskip]
          have hr' : alookup tl u = none := by simpa [alookup, hu] using hr
          exact h3 hr'

/-- Claim C6 witness: the spec scenario, recommendations X Y Z against the
purchase set containing Y and W, yields the count metric (1, 2). -/
theorem claim_C6_witness :
    alookup (evaluate [("u1", ["X", "Y", "Z"])] [("u1", ["Y", "W"])]) "u1" = some (1, 2) :=
  ((claim_C6 [("u1", ["X", "Y", "Z"])] [("u1", ["Y", "W"])] "u1").1
    ["X", "Y", "Z"] rfl ["Y", "W"] rfl).trans (by decide)

lemma splitInds_le (l : List (ℚ × Item)) (t : Thresh) :
    ∀ i ∈ splitInds l t, i ≤ l.length := by
  intro i hi
  rcases List.mem_cons.mp hi with h0 | hrest
  · omega
  · rcases List.mem_append.mp hrest with hf | hl
    · have hm := List.mem_range'_1.mp (List.mem_of_mem_filter hf)
      omega
    · have hm := List.mem_singleton.mp hl
      omega

lemma slice_len (l : List (ℚ × Item)) (s e : Nat) (he : e ≤ l.length) :
    ((l.drop s).take (e - s)).length = e - s := by
  simp only [List.length_take, List.length_drop]
  omega

lemma foldl_guard_filter (l : List (ℚ × Item)) (order : Nat) :
    ∀ (pairs : List (Nat × Nat)) (mc : MarkovChain),
    (∀ se ∈ pairs, se.2 ≤ l.length) →
    pairs.foldl
      (fun m se =>
        if order < se.2 - se.1 then m.add_path (((l.drop se.1).take (se.2 - se.1)).map Prod.snd)
        else m) mc
    = ((pairs.map (fun se => (l.drop se.1).take (se.2 - se.1))).filter
        (fun p => decide (order < p.length))).foldl
        (fun m p => m.add_path (p.map Prod.snd)) mc := by
  intro pairs
  induction pairs with
  | nil => intro mc _; rfl
  | cons se rest ih =>
    intro mc hb
    have hlen := slice_len l se.1 se.2 (hb se (List.mem_cons_self se rest))
    have hb' : ∀ p ∈ rest, p.2 ≤ l.length := fun p hp => hb p (List.mem_cons_of_mem se hp)
    by_cases hg : order < se.2 - se.1
    · have hg' : decide (order < ((l.drop se.1).take (se.2 - se.1)).length) = true := by
        rw [hlen]; exact decide_eq_true hg
      simp only [List.foldl_cons, List.map_cons, List.filter_cons, hg', if_pos hg]
      exact ih _ hb'
    · have hg' : decide (order < ((l.drop se.1).take (se.2 - se.1)).length) = false := by
        rw [hlen]; exact decide_eq_false hg
      simp only [List.foldl_cons, List.map_cons, List.filter_cons, hg', if_neg hg]
      exact ih _ hb'

/-- Claim C4: during chain building a path slice is handed to add_path
exactly when its length strictly exceeds the Markov order (the per-user
ingestion equals folding add_path over just the long paths), and add_path is
a no-op on sequences of length at most the order. -/
theorem claim_C4 (order : Nat) (t : Thresh) (mc : MarkovChain) (l : List (ℚ × Item)) :
    ingestUser order t mc l =
      ((buildPaths l t).filter (fun p => decide (order < p.length))).foldl
        (fun m p => m.add_path (p.map Prod.snd)) mc
    ∧ ∀ items : List Item, items.length ≤ mc.order → mc.add_path items = mc := by
  constructor
  · show ((splitInds l t).zip (splitInds l t).tail).foldl _ mc = _
    rw [foldl_guard_filter l order _ mc (fun se hse =>
      splitInds_le l t se.2 (List.mem_of_mem_tail (List.of_mem_zip hse).2))]
    rfl
  · intro items h
    simp [MarkovChain.add_path, h]

/-- Claim C4 witness: concrete instances of both conjuncts. -/
theorem claim_C4_witness :
    ingestUser 1 Thresh.inf (emptyChain 1) [((0 : ℚ), "A"), (10, "B")] =
      ((buildPaths [((0 : ℚ), "A"), (10, "B")] Thresh.inf).filter
        (fun p => decide (1 < p.length))).foldl
        (fun m p => m.add_path (p.map Prod.snd)) (emptyChain 1)
    ∧ (emptyChain 1).add_path ["A"] = emptyChain 1 :=
  ⟨(claim_C4 1 Thresh.inf (emptyChain 1) [((0 : ℚ), "A"), (10, "B")]).1,
   (claim_C4 1 Thresh.inf (emptyChain 1) [((0 : ℚ), "A"), (10, "B")]).2 ["A"] (by decide)⟩

lemma collect_nodup (n : Nat) :
    ∀ (xs acc : List Item), acc.Nodup → (collectWalk n xs acc).Nodup := by
  intro xs
  induction xs with
  | nil => intro acc h; exact h
  | cons x xs ih =>
    intro acc h
    show (if acc.length = n then acc
      else collectWalk n xs (if x ∈ acc then acc else acc ++ [x])).Nodup
    by_cases hl : acc.length = n
    · simpa [hl] using h
    · rw [if_neg hl]
      apply ih
      by_cases hx : x ∈ acc
      · simpa [hx] using h
      · simp [hx, List.nodup_append, h]

lemma collect_len (n : Nat) :
    ∀ (xs acc : List Item), acc.length ≤ n → (collectWalk n xs acc).length ≤ n := by
  intro xs
  induction xs with
  | nil => intro acc h; exact h
  | cons x xs ih =>
    intro acc h
    show (if acc.length = n then acc
      else collectWalk n xs (if x ∈ acc then acc else acc ++ [x])).length ≤ n
    by_cases hl : acc.length = n
    · rw [if_pos hl]; omega
    · rw [if_neg hl]
      apply ih
      by_cases hx : x ∈ acc
      · rw [if_pos hx]; exact h
      · rw [if_neg hx]
        simp only [List.length_append, List.length_singleton]
        omega

lemma fillLoop_spec (tgt : Nat) :
    ∀ (rem curr : List Item), rem.Nodup → curr.Nodup → curr.length ≤ tgt →
    tgt ≤ curr.length + (rem.filter (fun x => decide (x ∉ curr))).length →
    ∃ l, fillLoop tgt rem curr = some l ∧ l.Nodup ∧ l.length = tgt := by
  intro rem
  induction rem with
  | nil =>
    intro curr _ hnd hle hbound
    simp only [List.filter_nil, List.length_nil, Nat.add_zero] at hbound
    have : curr.length = tgt := le_antisymm hle hbound
    refine ⟨curr, ?_, hnd, this⟩
    show (if curr.length < tgt then none else some curr) = some curr
    rw [if_neg (by omega)]
  | cons x rest ih =>
    intro curr hrnd hnd hle hbound
    have hxrest : x ∉ rest := (List.nodup_cons.mp hrnd).1
    have hrnd' : rest.Nodup := (List.nodup_cons.mp hrnd).2
    by_cases hlt : curr.length < tgt
    · have hstep : fillLoop tgt (x :: rest) curr
          = fillLoop tgt rest (if x ∈ curr then curr else curr ++ [x]) := by
        show (if curr.length < tgt then
            fillLoop tgt rest (if x ∈ curr then curr else curr ++ [x]) else some curr) = _
        rw [if_pos hlt]
      rw [hstep]
      by_cases hx : x ∈ curr
      · rw [if_pos hx]
        apply ih _ hrnd' hnd hle
        have hfe : (x :: rest).filter (fun y => decide (y ∉ curr))
            = rest.filter (fun y => decide (y ∉ curr)) := by
          simp [List.filter_cons, hx]
        rw [hfe] at hbound
        exact hbound
      · rw [if_neg hx]
        have hnd' : (curr ++ [x]).Nodup :=
          hnd.append (List.nodup_singleton x)
            (fun a ha hax => hx ((List.mem_singleton.mp hax) ▸ ha))
        have hle' : (curr ++ [x]).length ≤ tgt := by
          simp only [List.length_append, List.length_singleton]
          omega
        apply ih _ hrnd' hnd' hle'
        have hfeq : rest.filter (fun y => decide (y ∉ curr ++ [x]))
            = rest.filter (fun y => decide (y ∉ curr)) := by
          apply List.filter_congr
          intro y hy
          have hyx : y ≠ x := fun h => hxrest (h ▸ hy)
          simp [List.mem_append, hyx]
        have hcons : (x :: rest).filter (fun y => decide (y ∉ curr))
            = x :: rest.filter (fun y => decide (y ∉ curr)) := by
          simp [List.filter_cons, hx]
        rw [hcons] at hbound
        rw [hfeq]
        simp only [List.length_append, List.length_singleton, List.length_cons] at hbound ⊢
        omega
    · refine ⟨curr, ?_, hnd, le_antisymm hle (by omega)⟩
      show (if curr.length < tgt then
          fillLoop tgt rest (if x ∈ curr then curr else curr ++ [x]) else some curr) = some curr
      rw [if_neg hlt]

lemma length_filter_inout (curr : List Item) :
    ∀ l : List Item,
    l.length = (l.filter (fun x => decide (x ∈ curr))).length
      + (l.filter (fun x => decide (x ∉ curr))).length := by
  intro l
  induction l with
  | nil => rfl
  | cons y ys ih =>
    by_cases hy : y ∈ curr
    · have e1 : (y :: ys).filter (fun x => decide (x ∈ curr))
          = y :: ys.filter (fun x => decide (x ∈ curr)) := by
        simp [List.filter_cons, hy]
      have e2 : (y :: ys).filter (fun x => decide (x ∉ curr))
          = ys.filter (fun x => decide (x ∉ curr)) := by
        simp [List.filter_cons, hy]
      rw [e1, e2]
      simp only [List.length_cons]
      omega
    · have e1 : (y :: ys).filter (fun x => decide (x ∈ curr))
          = ys.filter (fun x => decide (x ∈ curr)) := by
        simp [List.filter_cons, hy]
      have e2 : (y :: ys).filter (fun x => decide (x ∉ curr))
          = y :: ys.filter (fun x => decide (x ∉ curr)) := by
        simp [List.filter_cons, hy]
      rw [e1, e2]
      simp only [List.length_cons]
      omega

lemma filter_mem_length_le (curr : List Item) (l : List Item) (hnd : l.Nodup) :
    (l.filter (fun x => decide (x ∈ curr))).length ≤ curr.length := by
  have hsub : (l.filter (fun x => decide (x ∈ curr))) ⊆ curr := by
    intro a ha
    have := List.of_mem_filter ha
    exact of_decide_eq_true this
  exact ((hnd.filter _).subperm hsub).length_le

/-- Claim C3: for every user the recommendation list exists (the filler
never pops an exhausted list), has no duplicate items, and has length
exactly min of the requested count and the vocabulary size; the walk phase
alone already yields at most that many distinct items. -/
theorem claim_C3 (walkItems shuffled vocab : List Item) (n : Nat)
    (hperm : shuffled.Perm vocab) (hvn : vocab.Nodup) :
    (collectWalk (min n vocab.length) walkItems []).Nodup
    ∧ (collectWalk (min n vocab.length) walkItems []).length ≤ min n vocab.length
    ∧ ∃ l, recsForUser walkItems shuffled (min n vocab.length) = some l ∧ l.Nodup
        ∧ l.length = min n vocab.length := by
  have hsn : shuffled.Nodup := (hperm.nodup_iff).mpr hvn
  have hcnd : (collectWalk (min n vocab.length) walkItems []).Nodup :=
    collect_nodup _ _ _ (List.nodup_nil)
  have hclen : (collectWalk (min n vocab.length) walkItems []).length ≤ min n vocab.length :=
    collect_len _ _ _ (by simp)
  refine ⟨hcnd, hclen, ?_⟩
  show ∃ l, (if (collectWalk (min n vocab.length) walkItems []).length < min n vocab.length
      then fillLoop (min n vocab.length) shuffled (collectWalk (min n vocab.length) walkItems [])
      else some (collectWalk (min n vocab.length) walkItems [])) = some l ∧ _
  by_cases h : (collectWalk (min n vocab.length) walkItems []).length < min n vocab.length
  · rw [if_pos h]
    apply fillLoop_spec _ _ _ hsn hcnd hclen
    have h1 : (shuffled.filter (fun x => decide (x ∉ collectWalk (min n vocab.length) walkItems []))).length
        = (vocab.filter (fun x => decide (x ∉ collectWalk (min n vocab.length) walkItems []))).length :=
      (hperm.filter _).length_eq
    have h2 := length_filter_inout (collectWalk (min n vocab.length) walkItems []) vocab
    have h3 := filter_mem_length_le (collectWalk (min n vocab.length) walkItems []) vocab hvn
    have h4 : min n vocab.length ≤ vocab.length := Nat.min_le_right n vocab.length
    omega
  · rw [if_neg h]
    exact ⟨_, rfl, hcnd, by omega⟩

/-- Claim C3 witness: a concrete walk output with a repeated item, a
shuffled vocabulary, and a request for two recommendations. -/
theorem claim_C3_witness :
    (collectWalk (min 2 (["A", "B", "C"] : List Item).length) ["A", "B", "A"] []).Nodup
    ∧ (collectWalk (min 2 (["A", "B", "C"] : List Item).length) ["A", "B", "A"] []).length
        ≤ min 2 (["A", "B", "C"] : List Item).length
    ∧ ∃ l, recsForUser ["A", "B", "A"] (["A", "B", "C"].reverse)
          (min 2 (["A", "B", "C"] : List Item).length) = some l ∧ l.Nodup
        ∧ l.length = min 2 (["A", "B", "C"] : List Item).length :=
  claim_C3 ["A", "B", "A"] (["A", "B", "C"].reverse) ["A", "B", "C"] 2
    (List.reverse_perm ["A", "B", "C"]) (by decide)

lemma vDistWalk_isSome (mc : MarkovChain) :
    ∀ (v : MCState) (fi : List Item), v.length ≤ fi.length →
    (vDistWalk mc v fi).isSome = true := by
  intro v
  induction v with
  | nil => intro fi _; rfl
  | cons s vs ih =>
    intro fi h
    cases fi with
    | nil => simp at h
    | cons x fis =>
      have hs := ih fis (by simpa using h)
      show (Option.map (fun n => n + if slotLabel mc s ≠ some x then 1 else 0)
        (vDistWalk mc vs fis)).isSome = true
      cases hrec : vDistWalk mc vs fis with
      | none => rw [hrec] at hs; simp at hs
      | some n => rfl

lemma vDistWalk_none (mc : MarkovChain) :
    ∀ (v : MCState) (fi : List Item), fi.length < v.length →
    vDistWalk mc v fi = none := by
  intro v
  induction v with
  | nil => intro fi h; simp at h
  | cons s vs ih =>
    intro fi h
    cases fi with
    | nil => rfl
    | cons x fis =>
      show (vDistWalk mc vs fis).map _ = none
      rw [ih fis (by simpa using h)]
      rfl

lemma idxOf_some : ∀ (ls : List Item) (x : Item) (k : Nat),
    idxOf ls x = some k → ls[k]? = some x := by
  intro ls
  induction ls with
  | nil => intro x k h; cases h
  | cons y ys ih =>
    intro x k h
    show (y :: ys)[k]? = some x
    by_cases hy : y = x
    · have : idxOf (y :: ys) x = some 0 := by simp [idxOf, hy]
      rw [this] at h
      injection h with h
      subst h
      simp [hy]
    · have : idxOf (y :: ys) x = (idxOf ys x).map (· + 1) := by simp [idxOf, hy]
      rw [this] at h
      cases hk : idxOf ys x with
      | none => rw [hk] at h; cases h
      | some k' =>
        rw [hk] at h
        injection h with h
        subst h
        simpa using ih x k' hk

lemma idxOf_nodup : ∀ (ls : List Item), ls.Nodup → ∀ (k : Nat) (x : Item),
    ls[k]? = some x → idxOf ls x = some k := by
  intro ls
  induction ls with
  | nil => intro _ k x h; simp at h
  | cons y ys ih =>
    intro hnd k x h
    cases k with
    | zero =>
      simp only [List.getElem?_cons_zero] at h
      injection h with h
      simp [idxOf, h]
    | succ k' =>
      simp only [List.getElem?_cons_succ] at h
      have hmem : x ∈ ys := List.mem_iff_getElem?.mpr ⟨k', h⟩
      have hy : y ≠ x := fun he => (List.nodup_cons.mp hnd).1 (he ▸ hmem)
      have := ih (List.nodup_cons.mp hnd).2 k' x h
      simp [idxOf, hy, this]

lemma encodeAll_forall2 : ∀ (labels : List Item) (fi : List Item) (encs : List Nat),
    encodeAll labels fi = some encs →
    List.Forall₂ (fun x k => idxOf labels x = some k) fi encs := by
  intro labels fi
  induction fi with
  | nil =>
    intro encs h
    injection h with h
    subst h
    exact List.Forall₂.nil
  | cons x xs ih =>
    intro encs h
    simp only [encodeAll] at h
    cases hk : idxOf labels x with
    | none => rw [hk] at h; simp at h
    | some k =>
      cases hks : encodeAll labels xs with
      | none => rw [hk, hks] at h; simp at h
      | some ks =>
        rw [hk, hks] at h
        have h' : k :: ks = encs := by simpa using h
        subst h'
        exact List.Forall₂.cons hk (ih ks hks)

lemma vDistWalk_zero_of (mc : MarkovChain) :
    ∀ (v : MCState) (fi : List Item),
    List.Forall₂ (fun s x => slotLabel mc s = some x) v fi →
    vDistWalk mc v fi = some 0 := by
  intro v fi h
  induction h with
  | nil => rfl
  | cons hsx _ ih =>
    show (vDistWalk mc _ _).map _ = some 0
    rw [ih]
    simp [hsx]

lemma vDistWalk_zero_forall2 (mc : MarkovChain) :
    ∀ (v : MCState) (fi : List Item),
    vDistWalk mc v fi = some 0 →
    List.Forall₂ (fun s x => slotLabel mc s = some x) v (fi.take v.length) := by
  intro v
  induction v with
  | nil => intro fi _; exact List.Forall₂.nil
  | cons s vs ih =>
    intro fi h
    cases fi with
    | nil => cases h
    | cons x fis =>
      have h' : (vDistWalk mc vs fis).map
          (fun n => n + if slotLabel mc s ≠ some x then 1 else 0) = some 0 := h
      cases hrec : vDistWalk mc vs fis with
      | none => rw [hrec] at h'; cases h'
      | some n =>
        rw [hrec] at h'
        simp only [Option.map_some', Option.some.injEq] at h'
        by_cases hsx : slotLabel mc s = some x
        · have hn : n = 0 := by
            rw [if_neg (fun hc => hc hsx)] at h'
            omega
          subst hn
          exact List.Forall₂.cons hsx (ih fis hrec)
        · rw [if_pos hsx] at h'
          exact absurd h' (by omega)

lemma knownState_mem (mc : MarkovChain) (st : MCState) :
    mc.knownState st = true → st ∈ mc.transitions.map Prod.fst := by
  intro h
  simp only [MarkovChain.knownState, List.any_eq_true, decide_eq_true_eq] at h
  obtain ⟨p, hp, hps⟩ := h
  exact List.mem_map.mpr ⟨p, hp, hps⟩

lemma forall2_swap_map (mc : MarkovChain) :
    ∀ (fi : List Item) (encs : List Nat),
    List.Forall₂ (fun x k => idxOf mc.labels x = some k) fi encs →
    List.Forall₂ (fun s x => slotLabel mc s = some x) (encs.map some) fi := by
  intro fi encs h
  induction h with
  | nil => exact .nil
  | cons hxk _ ih =>
    refine .cons ?_ ih
    simp only [slotLabel, Option.bind_some]
    exact idxOf_some _ _ _ hxk

lemma state_eq_of_zero (mc : MarkovChain) :
    ∀ (v : MCState) (fi : List Item) (encs : List Nat),
    mc.labels.Nodup →
    List.Forall₂ (fun s x => slotLabel mc s = some x) v fi →
    List.Forall₂ (fun x k => idxOf mc.labels x = some k) fi encs →
    v = encs.map some := by
  intro v
  induction v with
  | nil =>
    intro fi encs _ h1 h2
    cases h1
    cases h2
    rfl
  | cons s vs ih =>
    intro fi encs hnd h1 h2
    cases h1 with
    | cons hsx h1' =>
      cases h2 with
      | cons hxk h2' =>
        obtain ⟨k', hk'⟩ : ∃ k', s = some k' := by
          cases s with
          | none => simp [slotLabel] at hsx
          | some k' => exact ⟨k', rfl⟩
        subst hk'
        have hl : mc.labels[k']? = _ := hsx
        simp only [slotLabel, Option.bind_some] at hl
        have hidx := idxOf_nodup mc.labels hnd k' _ hl
        rw [hxk] at hidx
        have hkk : _ = k' := Option.some.inj hidx
        rw [List.map_cons, ← hkk, ih _ _ hnd h1' h2']

lemma distsOf_ok (mc : MarkovChain) (fi : List Item) :
    ∀ keys : List MCState, (∀ v ∈ keys, (vDistWalk mc v fi).isSome = true) →
    distsOf mc fi keys = some (keys.map (fun v => (v, (vDistWalk mc v fi).getD 0))) := by
  intro keys
  induction keys with
  | nil => intro _; rfl
  | cons v vs ih =>
    intro h
    obtain ⟨d, hd⟩ := Option.isSome_iff_exists.mp (h v (List.mem_cons_self v vs))
    show (match vDistWalk mc v fi, distsOf mc fi vs with
      | some d, some rest => some ((v, d) :: rest) | _, _ => none) = _
    rw [hd, ih (fun w hw => h w (List.mem_cons_of_mem v hw))]
    simp [hd]

lemma foldl_min_le_init : ∀ (rest : List (MCState × Nat)) (d : Nat),
    rest.foldl (fun m p => Nat.min m p.2) d ≤ d := by
  intro rest
  induction rest with
  | nil => intro d; exact le_rfl
  | cons p ps ih =>
    intro d
    exact le_trans (ih _) (Nat.min_le_left _ _)

lemma foldl_min_le_mem : ∀ (rest : List (MCState × Nat)) (d : Nat) (p : MCState × Nat),
    p ∈ rest → rest.foldl (fun m p => Nat.min m p.2) d ≤ p.2 := by
  intro rest
  induction rest with
  | nil => intro d p hp; cases hp
  | cons q qs ih =>
    intro d p hp
    rcases List.mem_cons.mp hp with h | h
    · subst h
      exact le_trans (foldl_min_le_init qs _) (Nat.min_le_right _ _)
    · exact ih _ p h

lemma filter_zero_unique (dv : MCState → Nat) (node : MCState) :
    ∀ keys : List MCState, keys.Nodup → node ∈ keys → dv node = 0 →
    (∀ v ∈ keys, dv v = 0 → v = node) →
    (keys.map (fun v => (v, dv v))).filter (fun p => decide (p.2 = 0)) = [(node, 0)] := by
  intro keys
  induction keys with
  | nil => intro _ h; cases h
  | cons k ks ih =>
    intro hnd hmem h0 huniq
    by_cases hk : k = node
    · subst hk
      have hrest : (ks.map (fun v => (v, dv v))).filter (fun p => decide (p.2 = 0)) = [] := by
        rw [List.filter_eq_nil_iff]
        intro p hp
        obtain ⟨v, hv, rfl⟩ := List.mem_map.mp hp
        simp only [decide_eq_true_eq]
        intro hv0
        have hvk := huniq v (List.mem_cons_of_mem _ hv) hv0
        exact (List.nodup_cons.mp hnd).1 (hvk ▸ hv)
      rw [List.map_cons, List.filter_cons]
      rw [show decide ((k, dv k).2 = 0) = true from decide_eq_true h0]
      rw [hrest, h0]
      rfl
    · have hk0 : decide ((k, dv k).2 = 0) = false := by
        apply decide_eq_false
        intro h0'
        exact hk (huniq k (List.mem_cons_self _ _) h0')
      have hmem' : node ∈ ks := by
        rcases List.mem_cons.mp hmem with h | h
        · exact absurd h.symm hk
        · exact h
      rw [List.map_cons, List.filter_cons, hk0]
      exact ih (List.nodup_cons.mp hnd).2 hmem' h0
        (fun v hv hv0 => huniq v (List.mem_cons_of_mem _ hv) hv0)

lemma finalItemsOf_length (order : Nat) (inspections : List (ℚ × Item))
    (h : order ≤ inspections.length) :
    (finalItemsOf order inspections).length = order := by
  simp only [finalItemsOf, List.length_map, List.length_drop]
  omega

/-- Claim C2 (amended): for a user with at least `order` interactions whose
candidate window is a known state, the resolver branch returns exactly that
state (its distance-zero set is the singleton window), so the random walk
starts there; the original claim, which also covers shorter histories, is
refuted by claim_C2_counterexample. -/
theorem claim_C2 (mc : MarkovChain) (inspections : List (ℚ × Item)) (node : MCState)
    (hord : ∀ p ∈ mc.transitions, p.1.length = mc.order)
    (hnodup : mc.labels.Nodup)
    (hkeys : (mc.transitions.map Prod.fst).Nodup)
    (hlen : mc.order ≤ inspections.length)
    (hnode : finalNodeTry mc (finalItemsOf mc.order inspections) = some node) :
    selectStart mc (finalItemsOf mc.order inspections) = .ok (some [node]) := by
  set fi := finalItemsOf mc.order inspections with hfidef
  have hfil : fi.length = mc.order := finalItemsOf_length _ _ hlen
  have hrep : mc.order - fi.length = 0 := by omega
  cases henc : encodeAll mc.labels fi with
  | none =>
    simp only [finalNodeTry, henc] at hnode
    exact Option.noConfusion hnode
  | some encs =>
    simp only [finalNodeTry, henc, hrep, List.replicate, List.nil_append] at hnode
    cases hkn : mc.knownState (encs.map some) with
    | false => rw [hkn] at hnode; simp at hnode
    | true =>
      rw [hkn] at hnode
      simp only [if_true] at hnode
      have hnodeeq : node = encs.map some := by
        injection hnode with h
        exact h.symm
      subst hnodeeq
      have hf2 := encodeAll_forall2 mc.labels fi encs henc
      have hmemkeys : (encs.map some) ∈ mc.transitions.map Prod.fst := knownState_mem _ _ hkn
      have hkeylen : ∀ v ∈ mc.transitions.map Prod.fst, v.length = fi.length := by
        intro v hv
        obtain ⟨p, hp, hpe⟩ := List.mem_map.mp hv
        rw [← hpe, hord p hp, hfil]
      have hallsome : ∀ v ∈ mc.transitions.map Prod.fst, (vDistWalk mc v fi).isSome = true :=
        fun v hv => vDistWalk_isSome mc v fi (le_of_eq (hkeylen v hv))
      have hzero : vDistWalk mc (encs.map some) fi = some 0 :=
        vDistWalk_zero_of mc _ _ (forall2_swap_map mc fi encs hf2)
      have huniq : ∀ v ∈ mc.transitions.map Prod.fst,
          (vDistWalk mc v fi).getD 0 = 0 → v = encs.map some := by
        intro v hv hv0
        obtain ⟨d, hd⟩ := Option.isSome_iff_exists.mp (hallsome v hv)
        rw [hd] at hv0
        simp only [Option.getD_some] at hv0
        subst hv0
        have hf2v := vDistWalk_zero_forall2 mc v fi hd
        have htake : fi.take v.length = fi := by
          rw [hkeylen v hv]
          exact List.take_length fi -- take of full length
        rw [htake] at hf2v
        exact state_eq_of_zero mc v fi encs hnodup hf2v hf2
      obtain ⟨k0, krest, hkeq⟩ : ∃ k0 krest, mc.transitions.map Prod.fst = k0 :: krest := by
        cases hk2 : mc.transitions.map Prod.fst with
        | nil => rw [hk2] at hmemkeys; cases hmemkeys
        | cons a b => exact ⟨a, b, rfl⟩
      rw [hkeq] at hmemkeys hallsome huniq hkeys
      have hfn : finalNodeTry mc fi = some (encs.map some) := by
        simp only [finalNodeTry, henc, hrep, List.replicate, List.nil_append, hkn, if_true]
      have hfilter := filter_zero_unique (fun v => (vDistWalk mc v fi).getD 0) (encs.map some)
        (k0 :: krest) hkeys hmemkeys
        (by show (vDistWalk mc (encs.map some) fi).getD 0 = 0; rw [hzero]; rfl)
        (fun v hv hv0 => huniq v hv hv0)
      have hdmin : ((krest.map (fun v => (v, (vDistWalk mc v fi).getD 0))).foldl
          (fun m p => Nat.min m p.2) ((vDistWalk mc k0 fi).getD 0)) = 0 := by
        rcases List.mem_cons.mp hmemkeys with h | h
        · have h0 : (vDistWalk mc k0 fi).getD 0 = 0 := by rw [← h, hzero]; rfl
          have := foldl_min_le_init (krest.map (fun v => (v, (vDistWalk mc v fi).getD 0)))
            ((vDistWalk mc k0 fi).getD 0)
          omega
        · have hm : ((encs.map some : MCState), (0 : Nat)) ∈
              krest.map (fun v => (v, (vDistWalk mc v fi).getD 0)) := by
            refine List.mem_map.mpr ⟨encs.map some, h, ?_⟩
            rw [hzero]
            rfl
          have := foldl_min_le_mem (krest.map (fun v => (v, (vDistWalk mc v fi).getD 0)))
            ((vDistWalk mc k0 fi).getD 0) _ hm
          simp only at this
          omega
      have hnc : nearestCandidates mc fi = .ok [encs.map some] := by
        unfold nearestCandidates
        rw [hkeq, distsOf_ok mc fi (k0 :: krest) hallsome, List.map_cons]
        show Except.ok ((((k0, (vDistWalk mc k0 fi).getD 0) ::
            krest.map (fun v => (v, (vDistWalk mc v fi).getD 0))).filter
            (fun p => decide (p.2 = ((krest.map (fun v => (v, (vDistWalk mc v fi).getD 0))).foldl
              (fun m p => Nat.min m p.2) ((vDistWalk mc k0 fi).getD 0))))).map Prod.fst) = _
        rw [hdmin, ← List.map_cons (fun v => (v, (vDistWalk mc v fi).getD 0)) k0 krest, hfilter]
        rfl
      show selectStart mc fi = Except.ok (some [encs.map some])
      simp only [selectStart, hfn, hnc]
      rfl

/-- Claim C2 counterexample: the order-2 chain from path A B C knows the
left-padded state (sentinel, A) and that state has outgoing transitions, so
for the one-interaction user history [(0, A)] the candidate window is a
known state; yet recommend does not start the walk there: the distance
computation indexes past final_items and raises (IndexError), refuting the
claim for users with fewer than order interactions. -/
theorem claim_C2_counterexample :
    finalNodeTry mcT2 (finalItemsOf mcT2.order [((0 : ℚ), "A")]) = some [none, some 0]
    ∧ mcT2.knownState [none, some 0] = true
    ∧ selectStart mcT2 (finalItemsOf mcT2.order [((0 : ℚ), "A")]) = .error () :=
  ⟨rfl, rfl, rfl⟩

/-- Claim C2 witness: the order-2 chain from path A B C, user history
[(0, A), (1, B)]: the window (A, B) is known and the walk starts exactly
there. -/
theorem claim_C2_witness :
    selectStart mcT2 (finalItemsOf mcT2.order [((0 : ℚ), "A"), (1, "B")])
      = .ok (some [[some 0, some 1]]) :=
  claim_C2 mcT2 [((0 : ℚ), "A"), (1, "B")] [some 0, some 1]
    (by decide) (by decide) (by decide) (by decide) rfl

/-- Claim C10: the nearest-state distance computation is total exactly for
windows at least as long as a state; it raises for shorter ones, so a user
with fewer than order interactions whose padded window is a known state
makes recommend raise an IndexError instead of producing a start state. -/
theorem claim_C10 :
    (∀ (mc : MarkovChain) (v : MCState) (fi : List Item),
      v.length ≤ fi.length → (vDistWalk mc v fi).isSome = true)
    ∧ (∀ (mc : MarkovChain) (v : MCState) (fi : List Item),
      fi.length < v.length → vDistWalk mc v fi = none)
    ∧ (∀ (mc : MarkovChain) (inspections : List (ℚ × Item)) (node : MCState),
      (∀ p ∈ mc.transitions, p.1.length = mc.order) →
      inspections.length < mc.order →
      finalNodeTry mc (finalItemsOf mc.order inspections) = some node →
      selectStart mc (finalItemsOf mc.order inspections) = .error ()) := by
  refine ⟨vDistWalk_isSome, vDistWalk_none, ?_⟩
  intro mc inspections node hord hshort hnode
  set fi := finalItemsOf mc.order inspections with hfidef
  have hfl : fi.length = inspections.length := by
    simp only [hfidef, finalItemsOf, List.length_map, List.length_drop]
    omega
  have hmem : node ∈ mc.transitions.map Prod.fst := by
    cases henc : encodeAll mc.labels fi with
    | none =>
      simp only [finalNodeTry, henc] at hnode
      exact Option.noConfusion hnode
    | some encs =>
      simp only [finalNodeTry, henc] at hnode
      by_cases hk : mc.knownState
          (List.replicate (mc.order - fi.length) none ++ encs.map some) = true
      · rw [if_pos hk] at hnode
        injection hnode with h
        exact h ▸ knownState_mem mc _ hk
      · rw [if_neg hk] at hnode
        exact Option.noConfusion hnode
  obtain ⟨k0, krest, hkeq⟩ : ∃ a b, mc.transitions.map Prod.fst = a :: b := by
    cases hk2 : mc.transitions.map Prod.fst with
    | nil => rw [hk2] at hmem; cases hmem
    | cons a b => exact ⟨a, b, rfl⟩
  have hk0len : k0.length = mc.order := by
    have hk0m : k0 ∈ mc.transitions.map Prod.fst := by
      rw [hkeq]; exact List.mem_cons_self _ _
    obtain ⟨p, hp, hpe⟩ := List.mem_map.mp hk0m
    rw [← hpe]
    exact hord p hp
  have hvd : vDistWalk mc k0 fi = none :=
    vDistWalk_none mc k0 fi (by omega)
  have hd : distsOf mc fi (k0 :: krest) = none := by
    show (match vDistWalk mc k0 fi, distsOf mc fi krest with
      | some d, some rest => some ((k0, d) :: rest) | _, _ => none) = none
    rw [hvd]
  have hnc : nearestCandidates mc fi = .error () := by
    unfold nearestCandidates
    rw [hkeq, hd]
  show selectStart mc fi = .error ()
  simp only [selectStart, hnode, hnc]
  rfl

/-- Claim C10 witness: concrete instances of all three conjuncts on the
order-2 chain built from path A B C. -/
theorem claim_C10_witness :
    (vDistWalk mcT2 [some 0, some 1] ["A", "B"]).isSome = true
    ∧ vDistWalk mcT2 [none, some 0] ["A"] = none
    ∧ selectStart mcT2 (finalItemsOf mcT2.order [((0 : ℚ), "A")]) = .error () :=
  ⟨claim_C10.1 mcT2 [some 0, some 1] ["A", "B"] (by decide),
   claim_C10.2.1 mcT2 [none, some 0] ["A"] (by decide),
   claim_C10.2.2 mcT2 [((0 : ℚ), "A")] [none, some 0] (by decide) (by decide) rfl⟩

lemma splitInds_mem_iff (l : List (ℚ × Item)) (t : Thresh) (i : Nat)
    (h0 : 0 < i) (hl : i < l.length) :
    i ∈ splitInds l t ↔ isSplit l t i = true := by
  constructor
  · intro hi
    rcases List.mem_cons.mp hi with h | hrest
    · omega
    · rcases List.mem_append.mp hrest with hf | hsing
      · exact List.of_mem_filter hf
      · have := List.mem_singleton.mp hsing
        omega
  · intro hs
    refine List.mem_cons_of_mem _ (List.mem_append.mpr (Or.inl ?_))
    refine List.mem_filter.mpr ⟨List.mem_range'_1.mpr ⟨h0, by omega⟩, hs⟩

lemma chain_le_getLastD : ∀ (rest : List Nat) (e : Nat),
    List.Chain (· ≤ ·) e rest → e ≤ rest.getLastD e := by
  intro rest
  induction rest with
  | nil => intro e _; exact le_rfl
  | cons f rs ih =>
    intro e h
    obtain ⟨hef, h'⟩ := List.chain_cons.mp h
    rw [List.getLastD_cons]
    exact le_trans hef (ih f h')

lemma segsAux_join (l : List (ℚ × Item)) :
    ∀ (inds : List Nat) (s : Nat), List.Chain (· ≤ ·) s inds →
    (∀ j ∈ inds, j ≤ l.length) →
    (segmentsOf l (s :: inds)).flatten = (l.drop s).take (inds.getLastD s - s) := by
  intro inds
  induction inds with
  | nil =>
    intro s _ _
    simp [segmentsOf]
  | cons e rest ih =>
    intro s hch hb
    obtain ⟨hse, hch'⟩ := List.chain_cons.mp hch
    have he : e ≤ l.length := hb e (List.mem_cons_self _ _)
    have hseg : segmentsOf l (s :: e :: rest)
        = ((l.drop s).take (e - s)) :: segmentsOf l (e :: rest) := by
      simp [segmentsOf]
    rw [hseg, List.flatten_cons, ih e hch' (fun j hj => hb j (List.mem_cons_of_mem _ hj)),
      List.getLastD_cons]
    have hLe : e ≤ rest.getLastD e := chain_le_getLastD rest e hch'
    have harith : rest.getLastD e - s = (e - s) + (rest.getLastD e - e) := by omega
    rw [harith, List.take_add, List.drop_drop]
    have : s + (e - s) = e := by omega
    rw [this]

lemma S_mem (l : List (ℚ × Item)) (t : Thresh) :
    ∀ i ∈ (List.range' 1 (l.length - 1)).filter (isSplit l t), 1 ≤ i ∧ i < l.length := by
  intro i hi
  have h1 := List.mem_range'_1.mp (List.mem_of_mem_filter hi)
  omega

lemma splitInds_chain (l : List (ℚ × Item)) (t : Thresh) :
    List.Chain (· ≤ ·) 0
      ((List.range' 1 (l.length - 1)).filter (isSplit l t) ++ [l.length]) := by
  rw [List.chain_iff_pairwise, List.pairwise_cons]
  refine ⟨fun x _ => Nat.zero_le x, ?_⟩
  rw [List.pairwise_append]
  refine ⟨((List.pairwise_lt_range' 1 (l.length - 1)).filter _).imp le_of_lt, by simp, ?_⟩
  intro x hx y hy
  rw [List.mem_singleton.mp hy]
  exact le_of_lt (S_mem l t x hx).2

lemma splitInds_pairwise (l : List (ℚ × Item)) (t : Thresh) (hlen : 0 < l.length) :
    (splitInds l t).Pairwise (· < ·) := by
  rw [splitInds, List.pairwise_cons]
  constructor
  · intro x hx
    rcases List.mem_append.mp hx with hxs | hxl
    · have := (S_mem l t x hxs).1
      omega
    · rw [List.mem_singleton.mp hxl]
      exact hlen
  · rw [List.pairwise_append]
    refine ⟨(List.pairwise_lt_range' 1 (l.length - 1)).filter _, by simp, ?_⟩
    intro x hx y hy
    rw [List.mem_singleton.mp hy]
    exact (S_mem l t x hx).2

lemma buildPaths_join (l : List (ℚ × Item)) (t : Thresh) :
    (buildPaths l t).flatten = l := by
  cases l with
  | nil => rfl
  | cons hd tl =>
    have hchain := splitInds_chain (hd :: tl) t
    have hb : ∀ j ∈ (List.range' 1 ((hd :: tl).length - 1)).filter (isSplit (hd :: tl) t)
        ++ [(hd :: tl).length], j ≤ (hd :: tl).length := by
      intro j hj
      rcases List.mem_append.mp hj with h | h
      · exact le_of_lt (S_mem _ t j h).2
      · rw [List.mem_singleton.mp h]
    have hjoin := segsAux_join (hd :: tl) _ 0 hchain hb
    show (segmentsOf (hd :: tl) (splitInds (hd :: tl) t)).flatten = hd :: tl
    rw [splitInds, hjoin, List.getLastD_concat, List.drop_zero, Nat.sub_zero, List.take_length]

lemma buildPaths_inf (l : List (ℚ × Item)) : buildPaths l Thresh.inf = [l] := by
  have hfil : (List.range' 1 (l.length - 1)).filter (isSplit l Thresh.inf) = [] := by
    rw [List.filter_eq_nil_iff]
    intro i _
    show ¬ isSplit l Thresh.inf i = true
    unfold isSplit
    cases l[i]? <;> cases l[i - 1]? <;> simp [gapGT]
  show segmentsOf l (splitInds l Thresh.inf) = [l]
  rw [splitInds, hfil]
  simp [segmentsOf]

lemma betweenPair : ∀ (inds : List Nat) (s j : Nat), s < j → j ∉ inds →
    j < inds.getLastD s →
    ∃ se ∈ (s :: inds).zip inds, se.1 < j ∧ j < se.2 := by
  intro inds
  induction inds with
  | nil =>
    intro s j hsj _ hlast
    rw [show ([] : List Nat).getLastD s = s from rfl] at hlast
    omega
  | cons e rest ih =>
    intro s j hsj hnot hlast
    rw [List.getLastD_cons] at hlast
    by_cases hje : j < e
    · refine ⟨(s, e), ?_, hsj, hje⟩
      rw [List.zip_cons_cons]
      exact List.mem_cons_self _ _
    · have hej : e < j := by
        have hne : j ≠ e := fun h => hnot (h ▸ List.mem_cons_self _ _)
        omega
      have hnot' : j ∉ rest := fun h => hnot (List.mem_cons_of_mem _ h)
      obtain ⟨se, hse, h1, h2⟩ := ih e j hej hnot' hlast
      refine ⟨se, ?_, h1, h2⟩
      rw [List.zip_cons_cons]
      exact List.mem_cons_of_mem _ hse

lemma no_between : ∀ (inds : List Nat), inds.Pairwise (· < ·) →
    ∀ se ∈ inds.zip inds.tail, ∀ c ∈ inds, ¬(se.1 < c ∧ c < se.2) := by
  intro inds
  induction inds with
  | nil => intro _ se hse; cases hse
  | cons a rest ih =>
    intro hpw se hse c hc
    cases rest with
    | nil => cases hse
    | cons b rest' =>
      rw [show (a :: b :: rest').tail = b :: rest' from rfl, List.zip_cons_cons] at hse
      rcases List.mem_cons.mp hse with hh | ht
      · subst hh
        rintro ⟨h1, h2⟩
        rcases List.mem_cons.mp hc with hc1 | hc2
        · subst hc1; omega
        · rcases List.mem_cons.mp hc2 with hcb | hcr
          · subst hcb; omega
          · have hbc : b < c := (List.pairwise_cons.mp (List.pairwise_cons.mp hpw).2).1 c hcr
            omega
      · have hpw' : (b :: rest').Pairwise (· < ·) := (List.pairwise_cons.mp hpw).2
        rcases List.mem_cons.mp hc with hc1 | hc2
        · subst hc1
          have hse1 : se.1 ∈ b :: rest' := (List.of_mem_zip ht).1
          have hlt : c < se.1 := (List.pairwise_cons.mp hpw).1 se.1 hse1
          rintro ⟨h1, _⟩
          omega
        · exact ih hpw' se ht c hc2

lemma adjacency_iff (l : List (ℚ × Item)) (t : Thresh) (i : Nat)
    (h0 : 0 < i) (hl : i < l.length) :
    (∃ se ∈ (splitInds l t).zip (splitInds l t).tail, se.1 < i ∧ i < se.2)
      ↔ isSplit l t i = false := by
  constructor
  · rintro ⟨se, hse, h1, h2⟩
    cases hb : isSplit l t i with
    | false => rfl
    | true =>
      have hmem : i ∈ splitInds l t := (splitInds_mem_iff l t i h0 hl).mpr hb
      exact absurd ⟨h1, h2⟩
        (no_between (splitInds l t) (splitInds_pairwise l t (by omega)) se hse i hmem)
  · intro hs
    have hnotmem : i ∉ splitInds l t := by
      intro hmem
      rw [(splitInds_mem_iff l t i h0 hl).mp hmem] at hs
      exact Bool.noConfusion hs
    have hnot2 : i ∉ (List.range' 1 (l.length - 1)).filter (isSplit l t) ++ [l.length] :=
      fun h => hnotmem (List.mem_cons_of_mem _ h)
    have hres := betweenPair
      ((List.range' 1 (l.length - 1)).filter (isSplit l t) ++ [l.length]) 0 i h0 hnot2
      (by rw [List.getLastD_concat]; exact hl)
    exact hres

lemma adjacency_in_path (l : List (ℚ × Item)) (t : Thresh) (i : Nat) (a b : ℚ × Item)
    (h0 : 0 < i) (hl : i < l.length) (hs : isSplit l t i = false)
    (ha : l[i - 1]? = some a) (hb : l[i]? = some b) :
    ∃ p ∈ buildPaths l t, ∃ k, p[k]? = some a ∧ p[k + 1]? = some b := by
  obtain ⟨se, hse, h1, h2⟩ := (adjacency_iff l t i h0 hl).mpr hs
  refine ⟨(l.drop se.1).take (se.2 - se.1), List.mem_map.mpr ⟨se, hse, rfl⟩,
    i - 1 - se.1, ?_, ?_⟩
  · rw [List.getElem?_take, if_pos (by omega), List.getElem?_drop,
      show se.1 + (i - 1 - se.1) = i - 1 by omega]
    exact ha
  · rw [List.getElem?_take, if_pos (by omega), List.getElem?_drop,
      show se.1 + (i - 1 - se.1 + 1) = i by omega]
    exact hb

lemma t0_iff (l : List (ℚ × Item))
    (hch : List.Chain' (fun a b : ℚ × Item => a.1 ≤ b.1) l)
    (i : Nat) (a b : ℚ × Item) (h0 : 0 < i)
    (ha : l[i - 1]? = some a) (hb : l[i]? = some b) :
    isSplit l (Thresh.fin 0) i = false ↔ a.1 = b.1 := by
  have hil : i < l.length := (List.getElem?_eq_some.mp hb).1
  have hle : a.1 ≤ b.1 := by
    have hi1 : i - 1 < l.length - 1 := by omega
    have hstep := List.chain'_iff_get.mp hch (i - 1) hi1
    have hga : l.get ⟨i - 1, by omega⟩ = a := by
      have h2 := List.getElem?_eq_some.mp ha
      rw [List.get_eq_getElem]
      exact h2.2
    have hgb : l.get ⟨i - 1 + 1, by omega⟩ = b := by
      have h2 := List.getElem?_eq_some.mp hb
      rw [List.get_eq_getElem]
      have : i - 1 + 1 = i := by omega
      simp only [this]
      exact h2.2
    rw [hga, hgb] at hstep
    exact hstep
  show isSplit l (Thresh.fin 0) i = false ↔ a.1 = b.1
  unfold isSplit
  rw [hb, ha]
  show gapGT (b.1 - a.1) (Thresh.fin 0) = false ↔ a.1 = b.1
  unfold gapGT
  rw [decide_eq_false_iff_not, not_lt, sub_nonpos]
  exact ⟨fun h => le_antisymm hle h, fun h => le_of_eq h.symm⟩

/-- Claim C5: the segmenter splits exactly at gap-exceeding indices (interior
split indices are exactly those with gap above the threshold), the resulting
paths partition the user history (their concatenation is the history, and
adjacent interactions not separated by a split are adjacent inside one
path), an infinite threshold yields the single path equal to the whole
history, and at threshold zero a sorted history splits exactly between
unequal timestamps. -/
theorem claim_C5 (l : List (ℚ × Item)) (t : Thresh) :
    (∀ i, 0 < i → i < l.length → (i ∈ splitInds l t ↔ isSplit l t i = true))
    ∧ (buildPaths l t).flatten = l
    ∧ buildPaths l Thresh.inf = [l]
    ∧ (List.Chain' (fun a b : ℚ × Item => a.1 ≤ b.1) l →
        ∀ i a b, 0 < i → l[i - 1]? = some a → l[i]? = some b →
          (isSplit l (Thresh.fin 0) i = false ↔ a.1 = b.1))
    ∧ (∀ i, 0 < i → i < l.length →
        ((∃ se ∈ (splitInds l t).zip (splitInds l t).tail, se.1 < i ∧ i < se.2)
          ↔ isSplit l t i = false))
    ∧ (∀ i a b, 0 < i → i < l.length → isSplit l t i = false →
        l[i - 1]? = some a → l[i]? = some b →
        ∃ p ∈ buildPaths l t, ∃ k, p[k]? = some a ∧ p[k + 1]? = some b) :=
  ⟨fun i h0 hl => splitInds_mem_iff l t i h0 hl,
   buildPaths_join l t,
   buildPaths_inf l,
   fun hch i a b h0 ha hb => t0_iff l hch i a b h0 ha hb,
   fun i h0 hl => adjacency_iff l t i h0 hl,
   fun i a b h0 hl hs ha hb => adjacency_in_path l t i a b h0 hl hs ha hb⟩

/-- Claim C5 witness: the spec scenario history (0 A) (10 B) (50 C): its
paths concatenate back to the history, an infinite threshold keeps one
path, and at threshold zero the boundary between times 0 and 10 is a split
exactly because the timestamps differ. -/
theorem claim_C5_witness :
    ((buildPaths [((0 : ℚ), "A"), (10, "B"), (50, "C")] (Thresh.fin 30)).flatten
      = [((0 : ℚ), "A"), (10, "B"), (50, "C")])
    ∧ buildPaths [((0 : ℚ), "A"), (10, "B"), (50, "C")] Thresh.inf
      = [[((0 : ℚ), "A"), (10, "B"), (50, "C")]]
    ∧ (isSplit [((0 : ℚ), "A"), (10, "B"), (50, "C")] (Thresh.fin 0) 1 = false
      ↔ ((0 : ℚ), ("A" : Item)).1 = (((10 : ℚ)), ("B" : Item)).1) :=
  ⟨(claim_C5 [((0 : ℚ), "A"), (10, "B"), (50, "C")] (Thresh.fin 30)).2.1,
   (claim_C5 [((0 : ℚ), "A"), (10, "B"), (50, "C")] (Thresh.fin 30)).2.2.1,
   (claim_C5 [((0 : ℚ), "A"), (10, "B"), (50, "C")] (Thresh.fin 30)).2.2.2.1
     (by simp only [List.chain'_cons, List.chain'_singleton, and_true]
         constructor <;> norm_num)
     1 ((0 : ℚ), "A") ((10 : ℚ), "B") (by decide) rfl rfl⟩

lemma charsLe_total : ∀ s t : List Char, charsLe s t = true ∨ charsLe t s = true := by
  intro s
  induction s with
  | nil => intro t; exact Or.inl rfl
  | cons a as ih =>
    intro t
    cases t with
    | nil => exact Or.inr rfl
    | cons b bs =>
      rcases lt_trichotomy a b with h | h | h
      · exact Or.inl (by show (if a < b then true else _) = true; rw [if_pos h])
      · subst h
        have e1 : charsLe (a :: as) (a :: bs) = charsLe as bs := by
          show (if a < a then true else if a < a then false else charsLe as bs) = _
          rw [if_neg (lt_irrefl a), if_neg (lt_irrefl a)]
        have e2 : charsLe (a :: bs) (a :: as) = charsLe bs as := by
          show (if a < a then true else if a < a then false else charsLe bs as) = _
          rw [if_neg (lt_irrefl a), if_neg (lt_irrefl a)]
        rw [e1, e2]
        exact ih bs
      · exact Or.inr (by show (if b < a then true else _) = true; rw [if_pos h])

lemma charsLe_trans : ∀ s t u : List Char,
    charsLe s t = true → charsLe t u = true → charsLe s u = true := by
  intro s
  induction s with
  | nil => intro t u _ _; rfl
  | cons a as ih =>
    intro t u h1 h2
    cases t with
    | nil => exact Bool.noConfusion h1
    | cons b bs =>
      cases u with
      | nil => exact Bool.noConfusion h2
      | cons c cs =>
        show (if a < c then true else if c < a then false else charsLe as cs) = true
        by_cases hab : a < b
        · by_cases hbc : b < c
          · rw [if_pos (lt_trans hab hbc)]
          · by_cases hcb : c < b
            · have e : charsLe (b :: bs) (c :: cs) = false := by
                show (if b < c then true else if c < b then false else charsLe bs cs) = false
                rw [if_neg hbc, if_pos hcb]
              rw [e] at h2
              exact Bool.noConfusion h2
            · have hbceq : b = c := le_antisymm (not_lt.mp hcb) (not_lt.mp hbc)
              rw [if_pos (hbceq ▸ hab)]
        · by_cases hba : b < a
          · have e : charsLe (a :: as) (b :: bs) = false := by
              show (if a < b then true else if b < a then false else charsLe as bs) = false
              rw [if_neg hab, if_pos hba]
            rw [e] at h1
            exact Bool.noConfusion h1
          · have habeq : a = b := le_antisymm (not_lt.mp hba) (not_lt.mp hab)
            subst habeq
            have h1' : charsLe as bs = true := by
              have e : charsLe (a :: as) (a :: bs) = charsLe as bs := by
                show (if a < a then true else if a < a then false else charsLe as bs) = _
                rw [if_neg (lt_irrefl a), if_neg (lt_irrefl a)]
              rw [e] at h1
              exact h1
            by_cases hac : a < c
            · rw [if_pos hac]
            · by_cases hca : c < a
              · have e2 : charsLe (a :: bs) (c :: cs) = false := by
                  show (if a < c then true else if c < a then false else charsLe bs cs) = false
                  rw [if_neg hac, if_pos hca]
                rw [e2] at h2
                exact Bool.noConfusion h2
              · have h2' : charsLe bs cs = true := by
                  have e : charsLe (a :: bs) (c :: cs) = charsLe bs cs := by
                    show (if a < c then true else if c < a then false else charsLe bs cs) = _
                    rw [if_neg hac, if_neg hca]
                  rw [e] at h2
                  exact h2
                rw [if_neg hac, if_neg hca]
                exact ih bs cs h1' h2'

lemma pairLeB_total (a b : ℚ × String) : pairLeB a b = true ∨ pairLeB b a = true := by
  unfold pairLeB
  rcases lt_trichotomy a.1 b.1 with h | h | h
  · left; simp [h]
  · rcases charsLe_total a.2.data b.2.data with hc | hc
    · left; simp [h, hc]
    · right; simp [h.symm, hc]
  · right; simp [h]

lemma pairLeB_trans (a b c : ℚ × String)
    (h1 : pairLeB a b = true) (h2 : pairLeB b c = true) : pairLeB a c = true := by
  unfold pairLeB at h1 h2 ⊢
  simp only [Bool.or_eq_true, Bool.and_eq_true, decide_eq_true_eq] at h1 h2 ⊢
  rcases h1 with h1 | ⟨h1e, h1c⟩
  · rcases h2 with h2 | ⟨h2e, _⟩
    · exact Or.inl (lt_trans h1 h2)
    · exact Or.inl (h2e ▸ h1)
  · rcases h2 with h2 | ⟨h2e, h2c⟩
    · exact Or.inl (h1e ▸ h2)
    · exact Or.inr ⟨h1e.trans h2e, charsLe_trans _ _ _ h1c h2c⟩

lemma mem_insPair (x : ℚ × String) :
    ∀ (l : List (ℚ × String)) (z : ℚ × String), z ∈ insPair x l ↔ z = x ∨ z ∈ l := by
  intro l
  induction l with
  | nil => intro z; simp [insPair]
  | cons y ys ih =>
    intro z
    show z ∈ (if pairLeB x y then x :: y :: ys else y :: insPair x ys) ↔ _
    by_cases hxy : pairLeB x y = true
    · rw [if_pos hxy]
      simp only [List.mem_cons]
    · rw [if_neg hxy]
      simp only [List.mem_cons, ih]
      tauto

lemma pairwise_insPair (x : ℚ × String) :
    ∀ l : List (ℚ × String), l.Pairwise (fun a b => pairLeB a b = true) →
    (insPair x l).Pairwise (fun a b => pairLeB a b = true) := by
  intro l
  induction l with
  | nil => intro _; simp [insPair]
  | cons y ys ih =>
    intro hp
    show (if pairLeB x y then x :: y :: ys else y :: insPair x ys).Pairwise _
    by_cases hxy : pairLeB x y = true
    · rw [if_pos hxy, List.pairwise_cons]
      refine ⟨?_, hp⟩
      intro z hz
      rcases List.mem_cons.mp hz with h | h
      · rw [h]; exact hxy
      · exact pairLeB_trans x y z hxy ((List.pairwise_cons.mp hp).1 z h)
    · rw [if_neg hxy, List.pairwise_cons]
      constructor
      · intro z hz
        rcases (mem_insPair x ys z).mp hz with h | h
        · rw [h]
          rcases pairLeB_total x y with h' | h'
          · exact absurd h' hxy
          · exact h'
        · exact (List.pairwise_cons.mp hp).1 z h
      · exact ih (List.pairwise_cons.mp hp).2

lemma sortPairs_pairwise :
    ∀ l : List (ℚ × String), (sortPairs l).Pairwise (fun a b => pairLeB a b = true) := by
  intro l
  induction l with
  | nil => exact List.Pairwise.nil
  | cons x xs ih =>
    show (insPair x (sortPairs xs)).Pairwise _
    exact pairwise_insPair x _ ih

lemma pairLeB_fst_le (a b : ℚ × String) (h : pairLeB a b = true) : a.1 ≤ b.1 := by
  unfold pairLeB at h
  simp only [Bool.or_eq_true, Bool.and_eq_true, decide_eq_true_eq] at h
  rcases h with h | ⟨h, _⟩
  · exact le_of_lt h
  · exact le_of_eq h

lemma loadRows_error_iff (pyNum : String → Option ℚ) (iu ii it : Nat) :
    ∀ (body : List (List String)) (acc : List (String × List (ℚ × String))),
    (∀ row ∈ body, iu < row.length ∧ ii < row.length ∧ it < row.length) →
    ((∃ e, loadRows pyNum iu ii it body acc = .error e)
      ↔ ∃ row ∈ body, ∃ s, row[it]? = some s ∧ pyNum s = none) := by
  intro body
  induction body with
  | nil =>
    intro acc _
    simp [loadRows]
  | cons row rest ih =>
    intro acc hb
    obtain ⟨hu, hi, ht⟩ := hb row (List.mem_cons_self _ _)
    have hsu : row[iu]? = some row[iu] := List.getElem?_eq_getElem hu
    have hsi : row[ii]? = some row[ii] := List.getElem?_eq_getElem hi
    have hst : row[it]? = some row[it] := List.getElem?_eq_getElem ht
    have hstep : loadRows pyNum iu ii it (row :: rest) acc =
        match pyNum row[it] with
        | none => .error .malformedTime
        | some q => loadRows pyNum iu ii it rest (appendEntry acc row[iu] (q, row[ii])) := by
      show (match getField row iu with
        | Except.error e => Except.error e
        | Except.ok u =>
          match getField row ii with
          | Except.error e => Except.error e
          | Except.ok item =>
            match getField row it with
            | Except.error e => Except.error e
            | Except.ok ts =>
              match pyNum ts with
              | none => Except.error LoadErr.malformedTime
              | some q => loadRows pyNum iu ii it rest (appendEntry acc u (q, item))) = _
      simp [getField, hsu, hsi, hst]
    cases hp : pyNum row[it] with
    | none =>
      rw [hp] at hstep
      constructor
      · intro _
        exact ⟨row, List.mem_cons_self _ _, row[it], hst, hp⟩
      · intro _
        exact ⟨.malformedTime, hstep⟩
    | some q =>
      rw [hp] at hstep
      have hiff := ih (appendEntry acc row[iu] (q, row[ii]))
        (fun r hr => hb r (List.mem_cons_of_mem _ hr))
      constructor
      · rintro ⟨e, he⟩
        rw [hstep] at he
        obtain ⟨r, hr, s, hs, hnone⟩ := hiff.mp ⟨e, he⟩
        exact ⟨r, List.mem_cons_of_mem _ hr, s, hs, hnone⟩
      · rintro ⟨r, hr, s, hs, hnone⟩
        rcases List.mem_cons.mp hr with hre | hrr
        · have hs' : row[it]? = some s := hre ▸ hs
          rw [hst] at hs'
          have hseq : row[it] = s := Option.some.inj hs'
          rw [← hseq] at hnone
          rw [hnone] at hp
          exact Option.noConfusion hp
        · obtain ⟨e, he⟩ := hiff.mpr ⟨r, hrr, s, hs, hnone⟩
          exact ⟨e, by rw [hstep]; exact he⟩

lemma load_interactions_sorted (pyNum : String → Option ℚ) (rows : List (List String))
    (cu ci ct : String) (d : List (String × List (ℚ × String))) :
    load_interactions pyNum rows cu ci ct = .ok d →
    ∀ e ∈ d, e.2.Pairwise (fun a b : ℚ × String => a.1 ≤ b.1) := by
  intro h e he
  cases rows with
  | nil =>
    have hd : ([] : List (String × List (ℚ × String))) = d := by
      injection h
    rw [← hd] at he
    cases he
  | cons header body =>
    cases hcu : lastIdx header cu with
    | none => simp [load_interactions, hcu] at h
    | some iu =>
      cases hci : lastIdx header ci with
      | none => simp [load_interactions, hcu, hci] at h
      | some ii =>
        cases hct : lastIdx header ct with
        | none => simp [load_interactions, hcu, hci, hct] at h
        | some it =>
          cases hlr : loadRows pyNum iu ii it body [] with
          | error e' => simp [load_interactions, hcu, hci, hct, hlr] at h
          | ok data =>
            have hd : data.map (fun uv => (uv.1, sortPairs uv.2)) = d := by
              simpa [load_interactions, hcu, hci, hct, hlr] using h
            rw [← hd] at he
            obtain ⟨uv, _, hue⟩ := List.mem_map.mp he
            rw [← hue]
            exact (sortPairs_pairwise uv.2).imp (fun hlep => pairLeB_fst_le _ _ hlep)

/-- Claim C8 (amended): when the loader succeeds every per-user interaction
list is sorted ascending by timestamp; and for inputs whose header contains
the three column names and whose data rows are long enough for the resolved
indices, the loader raises exactly when some data row's time field fails to
parse as a number. The unamended only-if direction is refuted by
claim_C8_counterexample (a missing header column also raises). -/
theorem claim_C8 (pyNum : String → Option ℚ) (rows : List (List String)) (cu ci ct : String) :
    (∀ d, load_interactions pyNum rows cu ci ct = .ok d →
      ∀ e ∈ d, e.2.Pairwise (fun a b : ℚ × String => a.1 ≤ b.1))
    ∧ (∀ header body iu ii it, rows = header :: body →
        lastIdx header cu = some iu → lastIdx header ci = some ii →
        lastIdx header ct = some it →
        (∀ row ∈ body, iu < row.length ∧ ii < row.length ∧ it < row.length) →
        ((∃ e, load_interactions pyNum rows cu ci ct = .error e)
          ↔ ∃ row ∈ body, ∃ s, row[it]? = some s ∧ pyNum s = none)) := by
  constructor
  · exact fun d h => load_interactions_sorted pyNum rows cu ci ct d h
  · intro header body iu ii it hrows hcu hci hct hb
    subst hrows
    have hlr := loadRows_error_iff pyNum iu ii it body [] hb
    constructor
    · rintro ⟨e, he⟩
      cases hlrv : loadRows pyNum iu ii it body [] with
      | error e' => exact hlr.mp ⟨e', hlrv⟩
      | ok data =>
        simp [load_interactions, hcu, hci, hct, hlrv] at he
    · rintro ⟨r, hr, s, hs, hnone⟩
      obtain ⟨e, he⟩ := hlr.mpr ⟨r, hr, s, hs, hnone⟩
      refine ⟨e, ?_⟩
      simp [load_interactions, hcu, hci, hct, he]

/-- Claim C8 counterexample: a header-only input missing the time column
makes the loader raise (KeyError on the header) although no data row has an
unparseable time field, since there are no data rows at all; the raise-iff
of the claim therefore fails as stated. -/
theorem claim_C8_counterexample :
    load_interactions natNum [["user", "item"]] "user" "item" "time" = .error .missingColumn
    ∧ ([["user", "item"]] : List (List String)).tail = []
    ∧ ¬ ∃ row ∈ ([["user", "item"]] : List (List String)).tail, ∃ s : String,
        row[2]? = some s ∧ natNum s = none := by
  refine ⟨rfl, rfl, ?_⟩
  rintro ⟨row, hrow, _⟩
  exact absurd hrow (List.not_mem_nil row)

/-- Claim C8 witness: a well-formed two-row input loads, and the loaded user
list comes out sorted by time even though the rows arrived out of order;
an input whose time field is not numeric raises. -/
theorem claim_C8_witness :
    (∀ e ∈ ([("u1", [((5 : ℚ), "A"), (10, "B")])] : List (String × List (ℚ × String))),
        e.2.Pairwise (fun a b : ℚ × String => a.1 ≤ b.1))
    ∧ ∃ e, load_interactions natNum [["user", "item", "time"], ["u1", "B", "oops"]]
        "user" "item" "time" = .error e :=
  ⟨(claim_C8 natNum [["user", "item", "time"], ["u1", "B", "10"], ["u1", "A", "5"]]
      "user" "item" "time").1 [("u1", [(5, "A"), (10, "B")])] rfl,
   ((claim_C8 natNum [["user", "item", "time"], ["u1", "B", "oops"]]
      "user" "item" "time").2 ["user", "item", "time"] [["u1", "B", "oops"]] 0 1 2
      rfl rfl rfl rfl (by decide)).mpr
      ⟨["u1", "B", "oops"], List.mem_singleton.mpr rfl, "oops", rfl, rfl⟩⟩
